import Mathlib

/-!
Verification development for the Image-and-video-generator repository.

The Python strings are modelled as `List Char` (`Str`).  Character classes
model the ASCII fragment of Python's `re` classes `\w` and `\s`; every
concrete input used below is ASCII, where the two agree.
-/

/-- Python strings, modelled as lists of characters. -/
abbrev Str := List Char

/-- Conversion from Lean string literals to the model. -/
def S (s : String) : Str := s.data

/-- ASCII fragment of Python's regex class `\s` (whitespace). -/
def isWS (c : Char) : Bool :=
  c == ' ' || c == '\t' || c == '\n' || c == '\r' || c == '\x0b' || c == '\x0c'

/-- ASCII fragment of Python's regex class `\w` (word characters). -/
def isWordChar (c : Char) : Bool :=
  (decide ('a' ≤ c) && decide (c ≤ 'z')) ||
  (decide ('A' ≤ c) && decide (c ≤ 'Z')) ||
  (decide ('0' ≤ c) && decide (c ≤ '9')) || c == '_'

/-- The punctuation kept by `clean_text` (text_processor.py line 72). -/
def isPunctKeep (c : Char) : Bool :=
  c == '.' || c == ',' || c == ';' || c == ':' || c == '!' || c == '?' || c == '-'

/-- A character survives the filter of text_processor.py line 72. -/
def isKept (c : Char) : Bool := isWordChar c || isWS c || isPunctKeep c

/-- Worker for `collapseRun`: `b` records whether the previous character was
part of a run matched by `p` (in which case further run characters vanish). -/
def collapseRunGo (p : Char → Bool) (r : Char) : Bool → Str → Str
  | _, [] => []
  | b, c :: cs =>
    if p c then
      (if b then collapseRunGo p r true cs else r :: collapseRunGo p r true cs)
    else c :: collapseRunGo p r false cs

/-- Model of `re.sub(pattern+, r, s)`: every maximal run of characters
matched by `p` is replaced by the single character `r`. -/
def collapseRun (p : Char → Bool) (r : Char) (s : Str) : Str :=
  collapseRunGo p r false s

/-- Step (a) of clean_text: `re.sub(r'\s+', ' ', text)` (line 70). -/
def collapseWS (s : Str) : Str := collapseRun isWS ' ' s

/-- Step (b) of clean_text: `re.sub(r'[^\w\s.,;:!?-]', '', text)` (line 72). -/
def removeSpecial (s : Str) : Str := s.filter isKept

/-- Step (c) of clean_text: `re.sub(r'\n+', '\n', text)` (line 74). -/
def collapseNL (s : Str) : Str := collapseRun (fun c => c == '\n') '\n' s

/-- Remove a trailing run of whitespace, structurally (right half of
Python `str.strip()`). -/
def dropTrailWS : Str → Str
  | [] => []
  | c :: cs =>
    match dropTrailWS cs with
    | [] => if isWS c then [] else [c]
    | d :: ds => c :: d :: ds

/-- Python `str.strip()`: remove leading and trailing whitespace. -/
def pyStrip (s : Str) : Str := dropTrailWS (s.dropWhile isWS)

/-- TextProcessor.clean_text (text_processor.py lines 66-75). -/
def clean_text (text : Str) : Str :=
  pyStrip (collapseNL (removeSpecial (collapseWS text)))

/-- Worker for `pySplit`, accumulating the current word reversed. -/
def pySplitAux : Str → Str → List Str
  | [], acc => if acc.isEmpty then [] else [acc.reverse]
  | c :: cs, acc =>
    if isWS c then
      (if acc.isEmpty then pySplitAux cs [] else acc.reverse :: pySplitAux cs [])
    else pySplitAux cs (c :: acc)

/-- Python `str.split()` with no argument: split on whitespace runs,
discarding empty fields. -/
def pySplit (s : Str) : List Str := pySplitAux s []

/-- Python `' '.join(ws)`. -/
def pyJoin : List Str → Str
  | [] => []
  | [w] => w
  | w :: x :: ws => w ++ ' ' :: pyJoin (x :: ws)

/-- The running chunk-length measure of chunk_text: `sum(len(w) + 1)`. -/
def sumLen (ws : List Str) : Nat := (ws.map (fun w => w.length + 1)).sum

/-- The overlap-seeding scan of chunk_text (lines 101-108), acting on the
reversed current chunk: keep taking words while the accumulated length
stays within `ov`. -/
def takeOverlapRev (ov : Nat) : List Str → Nat → List Str
  | [], _ => []
  | w :: ws, ol =>
    if ol + w.length + 1 ≤ ov then w :: takeOverlapRev ov ws (ol + w.length + 1)
    else []

/-- The `overlap_words` computed at a chunk boundary (lines 101-108):
a greedy suffix of the just-finalized chunk whose measure stays ≤ ov. -/
def overlapWords (cc : List Str) (ov : Nat) : List Str :=
  (takeOverlapRev ov cc.reverse 0).reverse

/-- The main loop of TextProcessor.chunk_text (lines 92-118): state is the
remaining words, the current chunk and its running length. -/
def chunkLoop (cs ov : Nat) : List Str → List Str → Nat → List Str
  | [], cc, _ => if cc.isEmpty then [] else [pyJoin cc]
  | w :: ws, cc, cl =>
    if cl + (w.length + 1) > cs then
      pyJoin cc ::
        chunkLoop cs ov ws (overlapWords cc ov ++ [w])
          (sumLen (overlapWords cc ov ++ [w]))
    else
      chunkLoop cs ov ws (cc ++ [w]) (cl + (w.length + 1))

/-- TextProcessor.chunk_text (text_processor.py lines 77-120). -/
def chunk_text (text : Str) (chunk_size overlap : Nat) : List Str :=
  chunkLoop chunk_size overlap (pySplit text) [] 0

/-- Instrumented variant of the chunk_text loop: each produced chunk is kept
as its token list paired with the number of leading tokens that were seeded
from the previous chunk's overlap scan.  Identical control flow to
`chunkLoop`; projecting away the bookkeeping recovers `chunkLoop`. -/
def chunkLoopTagged (cs ov : Nat) :
    List Str → List Str → Nat → Nat → List (List Str × Nat)
  | [], cc, _, k => if cc.isEmpty then [] else [(cc, k)]
  | w :: ws, cc, cl, k =>
    if cl + (w.length + 1) > cs then
      (cc, k) ::
        chunkLoopTagged cs ov ws (overlapWords cc ov ++ [w])
          (sumLen (overlapWords cc ov ++ [w])) (overlapWords cc ov).length
    else
      chunkLoopTagged cs ov ws (cc ++ [w]) (cl + (w.length + 1)) k

/-- Instrumented chunk_text: the chunks as token lists, each tagged with its
seeded-overlap token count. -/
def chunkTextTagged (text : Str) (chunk_size overlap : Nat) :
    List (List Str × Nat) :=
  chunkLoopTagged chunk_size overlap (pySplit text) [] 0 0

/-- Sentence separators of get_text_stats: the regex class `[.!?]`. -/
def isSentSep (c : Char) : Bool := c == '.' || c == '!' || c == '?'

/-- Worker for `splitSeps`: `inRun` records whether the previous character
was a separator (separators inside a run are skipped, so a run yields a
single field boundary); the current field is accumulated reversed. -/
def splitSepsGo : Bool → Str → Str → List Str
  | _, [], acc => [acc.reverse]
  | inRun, c :: cs, acc =>
    if isSentSep c then
      (if inRun then splitSepsGo true cs acc
       else acc.reverse :: splitSepsGo true cs [])
    else splitSepsGo false cs (c :: acc)

/-- Python `re.split(r'[.!?]+', text)`: split on runs of sentence
separators, keeping empty fields (the result is never the empty list). -/
def splitSeps (s : Str) : List Str := splitSepsGo false s []

/-- The record returned by TextProcessor.get_text_stats; Python float
division is modelled exactly, by rational division. -/
structure TextStats where
  total_characters : Nat
  total_words : Nat
  total_sentences : Nat
  avg_word_length : ℚ
  avg_sentence_length : ℚ
deriving DecidableEq, Repr

/-- TextProcessor.get_text_stats (text_processor.py lines 122-134). -/
def get_text_stats (text : Str) : TextStats :=
  let words := pySplit text
  let sentences := splitSeps text
  { total_characters := text.length
    total_words := words.length
    total_sentences := (sentences.filter (fun s => !(pyStrip s).isEmpty)).length
    avg_word_length :=
      if words.isEmpty then 0
      else ((words.map List.length).sum : ℚ) / (words.length : ℚ)
    avg_sentence_length :=
      if sentences.isEmpty then 0
      else (words.length : ℚ) / (sentences.length : ℚ) }

/-- JSON values, the result type of Python's `json.loads`. -/
inductive Json where
  | null : Json
  | bool : Bool → Json
  | num : Int → Json
  | str : Str → Json
  | arr : List Json → Json
  | obj : List (Str × Json) → Json

/-- Python dict indexing `j[k]` on a parsed JSON object, as an Option
(`none` models a KeyError or indexing a non-object). -/
def Json.getField : Json → Str → Option Json
  | .obj kvs, k => (kvs.find? (fun kv => kv.1 == k)).map (fun kv => kv.2)
  | _, _ => none

/-- Field access that additionally requires the value to be a JSON string
(`none` also models the TypeError of joining a non-string). -/
def Json.getStrField (j : Json) (k : Str) : Option Str :=
  match j.getField k with
  | some (.str s) => some s
  | _ => none

/-- A JSON string test. -/
def isStrJson : Json → Bool
  | .str _ => true
  | _ => false

/-- A well-formed section object, per the spec's SummaryResult shape. -/
def isSectionJson : Json → Bool
  | .obj kvs =>
    (match ((kvs.find? (fun kv => kv.1 == S "heading")).map
        (fun kv => kv.2) : Option Json) with
     | some (.str _) => true
     | _ => false) &&
    (match ((kvs.find? (fun kv => kv.1 == S "content")).map
        (fun kv => kv.2) : Option Json) with
     | some (.str _) => true
     | _ => false) &&
    (match ((kvs.find? (fun kv => kv.1 == S "importance")).map
        (fun kv => kv.2) : Option Json) with
     | some (.str s) => s == S "high" || s == S "medium" || s == S "low"
     | _ => false)
  | _ => false

/-- Modelled from the spec: the code contains no validator for the
SummaryResult structure, so this predicate transcribes the shape required
by the spec's data model — an object with string `title`, string
`executive_summary`, an array of strings `key_points`, and an array of
`sections` each with string heading/content and an importance among
high/medium/low. -/
def isWellFormedSummaryResult (j : Json) : Bool :=
  match j.getField (S "title"), j.getField (S "executive_summary"),
        j.getField (S "key_points"), j.getField (S "sections") with
  | some t, some e, some (.arr kps), some (.arr secs) =>
      isStrJson t && isStrJson e && kps.all isStrJson && secs.all isSectionJson
  | _, _, _, _ => false

/-- The fallback structure of ContentGenerator.summarize_text
(main.py lines 73-78). -/
def fallbackSummary (text : Str) : Json :=
  .obj [ (S "title", .str (S "Document Summary")),
         (S "executive_summary", .str (text.take 200 ++ S "...")),
         (S "key_points", .arr [.str (S "Summary generation in progress")]),
         (S "sections", .arr []) ]

/-- ContentGenerator.summarize_text (main.py lines 57-78).  The argument
`parsedUpstream` stands for the outcome of `json.loads` on the stripped
model response: `some j` when the response text parses as JSON `j`, and
`none` when `json.loads` raises JSONDecodeError.  On a parse success the
parsed value is returned unchanged; on a parse failure the fallback
structure is returned and the error is swallowed. -/
def summarize_text (text : Str) (parsedUpstream : Option Json) : Json :=
  match parsedUpstream with
  | some j => j
  | none => fallbackSummary text

/-- The summarization section of ContentGenerator.process_file
(main.py lines 108-127).  `upstream c m` stands for the parsed upstream
response to the summarize_text call on input `c` with max_points `m`.
The result pairs the list of summarize_text calls made — each as
(input text, max_points) — with the final summary; it is `none` when a
chunk summary lacks a string `executive_summary` field (the KeyError /
TypeError path, which aborts the pipeline). -/
def processFileSummary (upstream : Str → Nat → Option Json) (cleanText : Str) :
    Option (List (Str × Nat) × Json) :=
  let chunks := chunk_text cleanText 4000 200
  if chunks.length > 1 then
    let first5 := chunks.take 5
    match first5.mapM
        (fun c => (summarize_text c (upstream c 4)).getStrField
          (S "executive_summary")) with
    | some sums =>
      let combined := pyJoin sums
      some (first5.map (fun c => (c, 4)) ++ [(combined, 8)],
            summarize_text combined (upstream combined 8))
    | none => none
  else
    some ([(cleanText, 8)], summarize_text cleanText (upstream cleanText 8))

/-- No two adjacent whitespace characters (so in particular no run of
whitespace longer than one character). -/
def noTwoAdjWS : Str → Bool
  | a :: b :: rest => (!(isWS a && isWS b)) && noTwoAdjWS (b :: rest)
  | _ => true

/-- The first character, when present, is not whitespace. -/
def headNonWS : Str → Bool
  | [] => true
  | c :: _ => !isWS c

/-- The last character, when present, is not whitespace. -/
def lastNonWS (l : Str) : Bool :=
  match l.getLast? with
  | none => true
  | some c => !isWS c

/-- An upstream model whose every response fails JSON parsing, so every
summarize_text call takes the fallback path. -/
def wUp : Str → Nat → Option Json := fun _ _ => none

/-- A 4001-character single-token document: its rendered length exceeds the
hard-coded chunk_size 4000 of process_file, so chunking yields more than
one chunk. -/
def wClean : Str := List.replicate 4001 'a'

/-- The aggregate string the witness run passes to the final summarize call:
the space-joined executive summaries of its two chunk-level fallbacks. -/
def wCombined : Str := S "..." ++ ' ' :: (wClean.take 200 ++ S "...")

/-- The summarize_text calls the witness run makes. -/
def wCalls : List (Str × Nat) := [([], 4), (wClean, 4), (wCombined, 8)]

/-- The final summary of the witness run. -/
def wFS : Json := fallbackSummary wCombined

/-- Claim C9: on the input with tokens AAAA BBBB CCCC DDDD, chunk_text with
chunk_size 11 and overlap 5 returns exactly the chunks "AAAA BBBB",
"BBBB CCCC", "CCCC DDDD" in that order. -/
theorem chunk_concrete_scenario :
    chunk_text (S "AAAA BBBB CCCC DDDD") 11 5 =
      [S "AAAA BBBB", S "BBBB CCCC", S "CCCC DDDD"] := by decide

/-- Claim C1 (code bug): on a non-empty text whose very first token already
exceeds chunk_size (here the single token "AAAAAA" with chunk_size 5 and
overlap 2, both positive), chunk_text emits a leading empty chunk,
violating the no-empty-chunk invariant that the spec mandates. -/
theorem chunk_text_emits_empty_chunk_on_oversized_first_token :
    chunk_text (S "AAAAAA") 5 2 = [[], S "AAAAAA"] ∧
      ([] : Str) ∈ chunk_text (S "AAAAAA") 5 2 := by decide

/-- Claim C2, counterexample: clean_text is not idempotent.  On "a @ b" the
first pass deletes the '@' after whitespace was already collapsed, leaving
the double space "a  b", which a second pass collapses further. -/
theorem clean_text_not_idempotent_cex :
    clean_text (clean_text (S "a @ b")) ≠ clean_text (S "a @ b") ∧
      clean_text (S "a @ b") = S "a  b" ∧
      clean_text (clean_text (S "a @ b")) = S "a b" := by decide

/-- Claim C3, counterexample: the output of clean_text can contain a run of
whitespace longer than one space — on "a @ b" the deletion of '@' happens
after whitespace collapsing and produces the double space in "a  b". -/
theorem clean_text_double_space_cex :
    noTwoAdjWS (clean_text (S "a @ b")) = false ∧
      clean_text (S "a @ b") = S "a  b" := by decide

/-- Claim C4, counterexample: on the text "." the sentence count (non-empty
segments) is 0, yet avg_sentence_length is 1/2, not 0 — the code divides by
the raw segment-list length (here 2), not by the non-empty-segment count. -/
theorem stats_avg_sentence_nonzero_cex :
    (get_text_stats (S ".")).total_sentences = 0 ∧
      (get_text_stats (S ".")).avg_sentence_length ≠ 0 := by
  refine ⟨rfl, ?_⟩
  have h1 : pySplit (S ".") = [S "."] := rfl
  have h2 : splitSeps (S ".") = [[], []] := rfl
  show (if (splitSeps (S ".")).isEmpty then (0 : ℚ)
    else ((pySplit (S ".")).length : ℚ) / ((splitSeps (S ".")).length : ℚ)) ≠ 0
  rw [h1, h2]
  norm_num

/-- Claim C5, counterexample: when the upstream output parses as JSON but is
not a well-formed SummaryResult (here the JSON number 42), summarize_text
returns that value unchanged rather than the degraded fallback result — the
fallback only guards JSON-decode failure, not structural validity. -/
theorem summarize_text_nonwellformed_json_cex :
    summarize_text (S "hello") (some (Json.num 42)) = Json.num 42 ∧
      isWellFormedSummaryResult (Json.num 42) = false ∧
      Json.num 42 ≠ fallbackSummary (S "hello") :=
  ⟨rfl, rfl, fun h => Json.noConfusion h⟩

/-- Claim C5 as amended: for every input text t, when the upstream output
fails to parse as JSON at all, summarize_text returns the deterministic
degraded result — title "Document Summary", executive_summary equal to the
first 200 characters of t followed by "...", exactly one fixed placeholder
key point, and empty sections — without surfacing the failure; this
fallback is itself a structurally valid SummaryResult.  (Upstream output
that parses as JSON but is not a well-formed SummaryResult is returned
unchanged instead.) -/
theorem summarize_text_fallback_on_parse_failure (t : Str) :
    summarize_text t none = fallbackSummary t ∧
      (fallbackSummary t).getStrField (S "executive_summary") =
        some (t.take 200 ++ S "...") ∧
      (fallbackSummary t).getField (S "key_points") =
        some (.arr [.str (S "Summary generation in progress")]) ∧
      (fallbackSummary t).getField (S "sections") = some (.arr []) ∧
      (fallbackSummary t).getField (S "title") =
        some (.str (S "Document Summary")) ∧
      isWellFormedSummaryResult (fallbackSummary t) = true ∧
      (∀ j, summarize_text t (some j) = j) :=
  ⟨rfl, rfl, rfl, rfl, rfl, rfl, fun _ => rfl⟩

theorem mem_collapseRunGo {p : Char → Bool} {r : Char} :
    ∀ {l : Str} {b : Bool} {c : Char}, c ∈ collapseRunGo p r b l →
      (p c = false ∧ c ∈ l) ∨ (c = r ∧ ∃ d ∈ l, p d = true) := by
  intro l
  induction l with
  | nil => intro b c h; simp [collapseRunGo] at h
  | cons a as ih =>
    intro b c h
    by_cases ha : p a
    · rw [collapseRunGo, if_pos ha] at h
      rcases b with _ | _
      · simp only [Bool.false_eq_true, if_neg] at h
        rcases List.mem_cons.mp h with hc | hc
        · exact Or.inr ⟨hc, a, List.mem_cons_self a as, ha⟩
        · rcases ih hc with h1 | ⟨h2, d, hd, hpd⟩
          · exact Or.inl ⟨h1.1, List.mem_cons_of_mem a h1.2⟩
          · exact Or.inr ⟨h2, d, List.mem_cons_of_mem a hd, hpd⟩
      · simp only [if_pos] at h
        rcases ih h with h1 | ⟨h2, d, hd, hpd⟩
        · exact Or.inl ⟨h1.1, List.mem_cons_of_mem a h1.2⟩
        · exact Or.inr ⟨h2, d, List.mem_cons_of_mem a hd, hpd⟩
    · rw [collapseRunGo, if_neg ha] at h
      rcases List.mem_cons.mp h with hc | hc
      · subst hc; exact Or.inl ⟨Bool.eq_false_iff.mpr ha, List.mem_cons_self c as⟩
      · rcases ih hc with h1 | ⟨h2, d, hd, hpd⟩
        · exact Or.inl ⟨h1.1, List.mem_cons_of_mem a h1.2⟩
        · exact Or.inr ⟨h2, d, List.mem_cons_of_mem a hd, hpd⟩

theorem collapseRunGo_true_head {p : Char → Bool} {r : Char} :
    ∀ {l : Str} {c : Char} {rest : Str},
      collapseRunGo p r true l = c :: rest → p c = false := by
  intro l
  induction l with
  | nil => intro c rest h; simp [collapseRunGo] at h
  | cons a as ih =>
    intro c rest h
    by_cases ha : p a
    · rw [collapseRunGo, if_pos ha, if_pos rfl] at h
      exact ih h
    · rw [collapseRunGo, if_neg ha] at h
      cases h
      exact Bool.eq_false_iff.mpr ha

theorem noTwoAdjWS_tail {a : Char} {l : Str} (h : noTwoAdjWS (a :: l) = true) :
    noTwoAdjWS l = true := by
  cases l with
  | nil => rfl
  | cons b bs => exact (Bool.and_eq_true_iff.mp h).2

theorem noTwoAdjWS_cons {a : Char} {l : Str} (ha : isWS a = false)
    (h : noTwoAdjWS l = true) : noTwoAdjWS (a :: l) = true := by
  cases l with
  | nil => rfl
  | cons b bs =>
    rw [noTwoAdjWS]
    simp [ha, h]

theorem noTwoAdjWS_collapseWS : ∀ (l : Str) (b : Bool),
    noTwoAdjWS (collapseRunGo isWS ' ' b l) = true := by
  intro l
  induction l with
  | nil => intro b; rfl
  | cons a as ih =>
    intro b
    by_cases ha : isWS a
    · rw [collapseRunGo, if_pos ha]
      cases b with
      | true => simpa using ih true
      | false =>
        rw [if_neg Bool.false_ne_true]
        rcases hgo : collapseRunGo isWS ' ' true as with _ | ⟨c, rest⟩
        · rfl
        · rw [noTwoAdjWS]
          have hc : isWS c = false := collapseRunGo_true_head hgo
          have h2 := ih true
          rw [hgo] at h2
          simp [hc, h2]
    · rw [collapseRunGo, if_neg ha]
      exact noTwoAdjWS_cons (Bool.eq_false_iff.mpr ha) (ih false)

theorem collapseRunGo_id {p : Char → Bool} {r : Char} :
    ∀ (l : Str) (b : Bool), (∀ c ∈ l, p c = false) →
      collapseRunGo p r b l = l := by
  intro l
  induction l with
  | nil => intro b _; rfl
  | cons a as ih =>
    intro b h
    have ha : p a = false := h a (List.mem_cons_self a as)
    rw [collapseRunGo, if_neg (by simp [ha])]
    rw [ih false (fun c hc => h c (List.mem_cons_of_mem a hc))]

theorem noTwoAdjWS_append_left : ∀ {xs ys : Str},
    noTwoAdjWS (xs ++ ys) = true → noTwoAdjWS xs = true := by
  intro xs
  induction xs with
  | nil => intro ys _; rfl
  | cons a as ih =>
    intro ys h
    cases as with
    | nil => rfl
    | cons b bs =>
      rw [List.cons_append, List.cons_append] at h
      rw [noTwoAdjWS] at h ⊢
      rcases Bool.and_eq_true_iff.mp h with ⟨h1, h2⟩
      rw [← List.cons_append] at h2
      simp [h1, ih h2]

theorem noTwoAdjWS_append_right : ∀ {xs ys : Str},
    noTwoAdjWS (xs ++ ys) = true → noTwoAdjWS ys = true := by
  intro xs
  induction xs with
  | nil => intro ys h; exact h
  | cons a as ih =>
    intro ys h
    rw [List.cons_append] at h
    exact ih (noTwoAdjWS_tail h)

theorem dropTrailWS_shape : ∀ (l : Str), ∃ t, l = dropTrailWS l ++ t := by
  intro l
  induction l with
  | nil => exact ⟨[], rfl⟩
  | cons c cs ih =>
    rcases ih with ⟨t, ht⟩
    rw [dropTrailWS]
    rcases hd : dropTrailWS cs with _ | ⟨d, ds⟩
    · by_cases hc : isWS c
      · rw [if_pos hc]
        refine ⟨c :: cs, ?_⟩
        rfl
      · rw [if_neg hc]
        refine ⟨cs, by simp⟩
    · rw [hd] at ht
      exact ⟨t, by simp [ht]⟩

theorem mem_dropTrailWS {c : Char} {l : Str} (h : c ∈ dropTrailWS l) : c ∈ l := by
  rcases dropTrailWS_shape l with ⟨t, ht⟩
  rw [ht]
  exact List.mem_append_left t h

theorem headNonWS_dropTrailWS_of (l : Str) (h : headNonWS l = true) :
    headNonWS (dropTrailWS l) = true := by
  rcases dropTrailWS_shape l with ⟨t, ht⟩
  rcases hd : dropTrailWS l with _ | ⟨d, ds⟩
  · rfl
  · rw [hd] at ht
    rw [ht] at h
    exact h

theorem lastNonWS_dropTrailWS : ∀ (l : Str), lastNonWS (dropTrailWS l) = true := by
  intro l
  induction l with
  | nil => rfl
  | cons c cs ih =>
    rw [dropTrailWS]
    rcases hd : dropTrailWS cs with _ | ⟨d, ds⟩
    · by_cases hc : isWS c
      · rw [if_pos hc]; rfl
      · rw [if_neg hc]
        simp [lastNonWS, List.getLast?, hc]
    · rw [hd] at ih
      rw [lastNonWS] at ih ⊢
      rw [List.getLast?_cons_cons]
      exact ih

theorem noTwoAdjWS_dropWhile {l : Str} (h : noTwoAdjWS l = true) :
    noTwoAdjWS (l.dropWhile isWS) = true := by
  have := List.takeWhile_append_dropWhile (p := isWS) (l := l)
  rw [← this] at h
  exact noTwoAdjWS_append_right h

theorem noTwoAdjWS_dropTrailWS {l : Str} (h : noTwoAdjWS l = true) :
    noTwoAdjWS (dropTrailWS l) = true := by
  rcases dropTrailWS_shape l with ⟨t, ht⟩
  rw [ht] at h
  exact noTwoAdjWS_append_left h

theorem headNonWS_dropWhile (l : Str) : headNonWS (l.dropWhile isWS) = true := by
  induction l with
  | nil => rfl
  | cons c cs ih =>
    by_cases hc : isWS c
    · rw [List.dropWhile_cons_of_pos hc]; exact ih
    · rw [List.dropWhile_cons_of_neg hc]
      simp [headNonWS, Bool.eq_false_iff.mpr hc]

theorem mem_pyStrip {c : Char} {l : Str} (h : c ∈ pyStrip l) : c ∈ l := by
  have h1 : c ∈ l.dropWhile isWS := mem_dropTrailWS h
  exact (List.dropWhile_sublist isWS).mem h1

theorem headNonWS_pyStrip (l : Str) : headNonWS (pyStrip l) = true :=
  headNonWS_dropTrailWS_of _ (headNonWS_dropWhile l)

theorem lastNonWS_pyStrip (l : Str) : lastNonWS (pyStrip l) = true :=
  lastNonWS_dropTrailWS _

theorem noTwoAdjWS_pyStrip {l : Str} (h : noTwoAdjWS l = true) :
    noTwoAdjWS (pyStrip l) = true :=
  noTwoAdjWS_dropTrailWS (noTwoAdjWS_dropWhile h)

theorem ws_eq_space_of_mem_collapseWS {c : Char} {l : Str}
    (h : c ∈ collapseWS l) (hws : isWS c = true) : c = ' ' := by
  rcases mem_collapseRunGo h with ⟨h1, _⟩ | ⟨h2, _⟩
  · rw [h1] at hws; cases hws
  · exact h2

theorem no_nl_removeSpecial_collapseWS (l : Str) :
    ∀ c ∈ removeSpecial (collapseWS l), (c == '\n') = false := by
  intro c hc
  have hmem : c ∈ collapseWS l := List.mem_of_mem_filter hc
  by_cases hws : isWS c
  · have := ws_eq_space_of_mem_collapseWS hmem hws
    subst this
    rfl
  · have : c ≠ '\n' := by
      intro h
      subst h
      exact hws rfl
    simpa using this

theorem collapseNL_id_after (l : Str) :
    collapseNL (removeSpecial (collapseWS l)) = removeSpecial (collapseWS l) :=
  collapseRunGo_id _ false (no_nl_removeSpecial_collapseWS l)

theorem clean_no_nl (s : Str) : '\n' ∉ clean_text s := by
  intro h
  rw [clean_text, collapseNL_id_after] at h
  have := no_nl_removeSpecial_collapseWS s '\n' (mem_pyStrip h)
  simp at this

theorem allKept_clean (s : Str) : ∀ c ∈ clean_text s, isKept c = true := by
  intro c hc
  rw [clean_text, collapseNL_id_after] at hc
  exact List.of_mem_filter (mem_pyStrip hc)

theorem allKept_collapseWS {s : Str} (h : ∀ c ∈ s, isKept c = true) :
    ∀ c ∈ collapseWS s, isKept c = true := by
  intro c hc
  rcases mem_collapseRunGo hc with ⟨_, hmem⟩ | ⟨hsp, _⟩
  · exact h c hmem
  · subst hsp; rfl

theorem removeSpecial_id {s : Str} (h : ∀ c ∈ s, isKept c = true) :
    removeSpecial s = s :=
  List.filter_eq_self.mpr h

theorem collapseNL_collapseWS_id (s : Str) :
    collapseNL (collapseWS s) = collapseWS s := by
  apply collapseRunGo_id
  intro c hc
  by_cases hws : isWS c
  · have := ws_eq_space_of_mem_collapseWS hc hws
    subst this; rfl
  · have : c ≠ '\n' := fun h => hws (h ▸ rfl)
    simpa using this

theorem clean_text_eq_of_kept {s : Str} (h : ∀ c ∈ s, isKept c = true) :
    clean_text s = pyStrip (collapseWS s) := by
  rw [clean_text, removeSpecial_id (allKept_collapseWS h), collapseNL_collapseWS_id]

theorem collapseWS_id : ∀ {l : Str}, noTwoAdjWS l = true →
    (∀ c ∈ l, isWS c = true → c = ' ') → collapseWS l = l := by
  intro l
  induction l with
  | nil => intro _ _; rfl
  | cons a as ih =>
    intro hadj hsp
    have htail : collapseWS as = as :=
      ih (noTwoAdjWS_tail hadj) (fun c hc hwc => hsp c (List.mem_cons_of_mem a hc) hwc)
    by_cases ha : isWS a
    · have ha' : a = ' ' := hsp a (List.mem_cons_self a as) ha
      subst ha'
      rw [collapseWS, collapseRun, collapseRunGo, if_pos ha, if_neg Bool.false_ne_true]
      congr 1
      cases as with
      | nil => rfl
      | cons b bs =>
        have hb : isWS b = false := by
          rw [noTwoAdjWS] at hadj
          have h1 := (Bool.and_eq_true_iff.mp hadj).1
          rcases hbb : isWS b with _ | _
          · rfl
          · rw [ha, hbb] at h1; cases h1
        rw [collapseRunGo, if_neg (by simp [hb])]
        rw [collapseWS, collapseRun, collapseRunGo, if_neg (by simp [hb])] at htail
        exact htail
    · rw [collapseWS, collapseRun, collapseRunGo, if_neg ha]
      rw [collapseWS, collapseRun] at htail
      rw [htail]

theorem dropWhile_id_of_headNonWS {l : Str} (h : headNonWS l = true) :
    l.dropWhile isWS = l := by
  cases l with
  | nil => rfl
  | cons c cs =>
    rw [headNonWS] at h
    exact List.dropWhile_cons_of_neg (by simpa using h)

theorem dropTrailWS_id_of_lastNonWS : ∀ {l : Str}, lastNonWS l = true →
    dropTrailWS l = l := by
  intro l
  induction l with
  | nil => intro _; rfl
  | cons c cs ih =>
    intro h
    cases cs with
    | nil =>
      have hc : isWS c = false := by
        rw [lastNonWS] at h
        simpa [List.getLast?] using h
      rw [dropTrailWS, dropTrailWS, if_neg (by simp [hc])]
    | cons d ds =>
      have htail : lastNonWS (d :: ds) = true := by
        rw [lastNonWS] at h ⊢
        rwa [List.getLast?_cons_cons] at h
      rw [dropTrailWS, ih htail]

theorem pyStrip_id {l : Str} (h1 : headNonWS l = true) (h2 : lastNonWS l = true) :
    pyStrip l = l := by
  rw [pyStrip, dropWhile_id_of_headNonWS h1, dropTrailWS_id_of_lastNonWS h2]

theorem clean_text_fixed {l : Str} (hadj : noTwoAdjWS l = true)
    (hsp : ∀ c ∈ l, isWS c = true → c = ' ')
    (hkept : ∀ c ∈ l, isKept c = true)
    (hhd : headNonWS l = true) (hlast : lastNonWS l = true) :
    clean_text l = l := by
  rw [clean_text, collapseWS_id hadj hsp, removeSpecial_id hkept]
  have hnl : ∀ c ∈ l, (c == '\n') = false := by
    intro c hc
    by_cases hws : isWS c
    · have := hsp c hc hws
      subst this; rfl
    · have : c ≠ '\n' := fun h => hws (h ▸ rfl)
      simpa using this
  rw [show collapseNL l = l from collapseRunGo_id l false hnl]
  exact pyStrip_id hhd hlast

theorem clean_clean_of_kept {s : Str} (h : ∀ c ∈ s, isKept c = true) :
    clean_text (clean_text s) = clean_text s := by
  rw [clean_text_eq_of_kept h]
  apply clean_text_fixed
  · exact noTwoAdjWS_pyStrip (noTwoAdjWS_collapseWS s false)
  · intro c hc hws
    exact ws_eq_space_of_mem_collapseWS (mem_pyStrip hc) hws
  · intro c hc
    exact allKept_collapseWS h c (mem_pyStrip hc)
  · exact headNonWS_pyStrip _
  · exact lastNonWS_pyStrip _

theorem splitSepsGo_ne_nil : ∀ (l : Str) (b : Bool) (acc : Str),
    splitSepsGo b l acc ≠ [] := by
  intro l
  induction l with
  | nil => intro b acc; simp [splitSepsGo]
  | cons c cs ih =>
    intro b acc
    by_cases hc : isSentSep c <;> by_cases hb : b <;>
      simp [splitSepsGo, hc, hb, ih]

/-- Claim C2 as amended: clean_text is idempotent on every input none of
whose characters is deleted by the special-character filter; on general
inputs a deletion can merge two spaces and a second pass differs (see the
counterexample). -/
theorem clean_text_idempotent_on_kept_inputs (s : Str)
    (h : ∀ c ∈ s, isKept c = true) :
    clean_text (clean_text s) = clean_text s :=
  clean_clean_of_kept h

theorem clean_text_idempotent_on_kept_inputs_witness :
    (∀ c ∈ S "ab  cd.\ne", isKept c = true) ∧
      clean_text (clean_text (S "ab  cd.\ne")) = clean_text (S "ab  cd.\ne") :=
  ⟨by decide, clean_text_idempotent_on_kept_inputs (S "ab  cd.\ne") (by decide)⟩

/-- Claim C3 as amended: for every string s, clean_text s contains no
character outside word characters, whitespace and the kept punctuation, no
newline at all (hence no run of more than one newline), and no leading or
trailing whitespace; the no-double-space part of canonical form holds only
when no character of s is deleted by the filter (see the counterexample). -/
theorem clean_text_canonical_form_amended (s : Str) :
    (∀ c ∈ clean_text s, isKept c = true) ∧
      '\n' ∉ clean_text s ∧
      headNonWS (clean_text s) = true ∧
      lastNonWS (clean_text s) = true ∧
      ((∀ c ∈ s, isKept c = true) → noTwoAdjWS (clean_text s) = true) := by
  refine ⟨allKept_clean s, clean_no_nl s, ?_, ?_, ?_⟩
  · rw [clean_text]; exact headNonWS_pyStrip _
  · rw [clean_text]; exact lastNonWS_pyStrip _
  · intro h
    rw [clean_text_eq_of_kept h]
    exact noTwoAdjWS_pyStrip (noTwoAdjWS_collapseWS s false)

theorem clean_text_canonical_form_amended_witness :
    isKept 'x' = true ∧ headNonWS (clean_text (S " x@ y ")) = true ∧
      lastNonWS (clean_text (S " x@ y ")) = true ∧
      noTwoAdjWS (clean_text (S "a b")) = true :=
  ⟨(clean_text_canonical_form_amended (S " x@ y ")).1 'x' (by decide),
   (clean_text_canonical_form_amended (S " x@ y ")).2.2.1,
   (clean_text_canonical_form_amended (S " x@ y ")).2.2.2.1,
   (clean_text_canonical_form_amended (S "a b")).2.2.2.2 (by decide)⟩

/-- Claim C4 as amended: avg_word_length is 0 whenever total_words is 0;
avg_sentence_length never divides by zero because the raw sentence-split
list is never empty (its length, the actual denominator, is at least 1);
and stats of the empty string yields total_words 0, avg_word_length 0
and avg_sentence_length 0 without raising. -/
theorem stats_division_guard_amended (s : Str)
    (h : (get_text_stats s).total_words = 0) :
    (get_text_stats s).avg_word_length = 0 ∧
      (∀ u : Str, splitSeps u ≠ []) ∧
      (get_text_stats (S "")).total_words = 0 ∧
      (get_text_stats (S "")).avg_word_length = 0 ∧
      (get_text_stats (S "")).avg_sentence_length = 0 := by
  refine ⟨?_, fun u => splitSepsGo_ne_nil u false [], rfl, rfl, ?_⟩
  · replace h : (pySplit s).length = 0 := h
    have hw : pySplit s = [] := List.length_eq_zero.mp h
    show (if (pySplit s).isEmpty then (0 : ℚ)
      else ((pySplit s).map List.length).sum / ((pySplit s).length : ℚ)) = 0
    rw [hw]
    rfl
  · have h1 : pySplit (S "") = [] := rfl
    have h2 : splitSeps (S "") = [[]] := rfl
    show (if (splitSeps (S "")).isEmpty then (0 : ℚ)
      else ((pySplit (S "")).length : ℚ) / ((splitSeps (S "")).length : ℚ)) = 0
    rw [h1, h2]
    norm_num

theorem stats_division_guard_amended_witness :
    (get_text_stats (S "")).total_words = 0 ∧
      (get_text_stats (S "")).avg_word_length = 0 ∧ splitSeps (S ".") ≠ [] :=
  ⟨rfl, (stats_division_guard_amended (S "") rfl).1,
   (stats_division_guard_amended (S "") rfl).2.1 (S ".")⟩

/-- Claim C10: for every input string the output of clean_text contains no
newline character at all — the initial whitespace collapse already replaced
every newline by a space, so the later newline-collapsing step is the
identity on its input. -/
theorem clean_text_no_newline (s : Str) :
    '\n' ∉ clean_text s ∧
      collapseNL (removeSpecial (collapseWS s)) =
        removeSpecial (collapseWS s) :=
  ⟨clean_no_nl s, collapseNL_id_after s⟩

theorem drop_append_le {α : Type} : ∀ (l1 l2 : List α) (k : Nat), k ≤ l1.length →
    (l1 ++ l2).drop k = l1.drop k ++ l2 := by
  intro l1
  induction l1 with
  | nil =>
    intro l2 k hk
    have : k = 0 := Nat.le_zero.mp hk
    subst this
    simp
  | cons a as ih =>
    intro l2 k hk
    cases k with
    | zero => simp
    | succ k' =>
      rw [List.cons_append, List.drop_succ_cons, List.drop_succ_cons]
      exact ih l2 k' (Nat.le_of_succ_le_succ hk)

theorem chunkLoopTagged_proj (cs ov : Nat) : ∀ (ws cc : List Str) (cl k : Nat),
    (chunkLoopTagged cs ov ws cc cl k).map (fun p => pyJoin p.1) =
      chunkLoop cs ov ws cc cl := by
  intro ws
  induction ws with
  | nil =>
    intro cc cl k
    rw [chunkLoopTagged, chunkLoop]
    by_cases h : cc.isEmpty <;> simp [h]
  | cons w ws ih =>
    intro cc cl k
    rw [chunkLoopTagged, chunkLoop]
    by_cases h : cl + (w.length + 1) > cs
    · rw [if_pos h, if_pos h, List.map_cons, ih]
    · rw [if_neg h, if_neg h, ih]

theorem chunkLoopTagged_reconstruct (cs ov : Nat) :
    ∀ (ws cc : List Str) (cl k : Nat), k ≤ cc.length →
    ((chunkLoopTagged cs ov ws cc cl k).map (fun p => p.1.drop p.2)).flatten =
      cc.drop k ++ ws := by
  intro ws
  induction ws with
  | nil =>
    intro cc cl k hk
    rw [chunkLoopTagged]
    rcases cc with _ | ⟨c, cc'⟩
    · simp
    · simp
  | cons w ws ih =>
    intro cc cl k hk
    rw [chunkLoopTagged]
    by_cases h : cl + (w.length + 1) > cs
    · rw [if_pos h, List.map_cons, List.flatten_cons]
      rw [ih _ _ (overlapWords cc ov).length (by simp)]
      rw [drop_append_le _ _ _ (Nat.le_refl _)]
      simp
    · rw [if_neg h]
      rw [ih _ _ k (Nat.le_trans hk (by simp))]
      rw [drop_append_le _ _ _ hk]
      simp

theorem takeOverlapRev_pre (ov : Nat) : ∀ (l : List Str) (ol : Nat),
    ∃ rest, takeOverlapRev ov l ol ++ rest = l := by
  intro l
  induction l with
  | nil => intro ol; exact ⟨[], rfl⟩
  | cons w ws ih =>
    intro ol
    rw [takeOverlapRev]
    by_cases h : ol + w.length + 1 ≤ ov
    · rw [if_pos h]
      rcases ih (ol + w.length + 1) with ⟨rest, hr⟩
      exact ⟨rest, by rw [List.cons_append, hr]⟩
    · rw [if_neg h]
      exact ⟨w :: ws, rfl⟩

theorem takeOverlapRev_bound (ov : Nat) : ∀ (l : List Str) (ol : Nat), ol ≤ ov →
    ol + sumLen (takeOverlapRev ov l ol) ≤ ov := by
  intro l
  induction l with
  | nil => intro ol h; simpa [sumLen] using h
  | cons w ws ih =>
    intro ol h
    rw [takeOverlapRev]
    by_cases hg : ol + w.length + 1 ≤ ov
    · rw [if_pos hg]
      have := ih (ol + w.length + 1) hg
      unfold sumLen at this ⊢
      simp only [List.map_cons, List.sum_cons]
      omega
    · rw [if_neg hg]
      simpa [sumLen] using h

theorem sumLen_reverse (l : List Str) : sumLen l.reverse = sumLen l := by
  unfold sumLen
  rw [List.map_reverse, List.sum_reverse]

theorem overlapWords_suffix (cc : List Str) (ov : Nat) :
    ∃ pre, pre ++ overlapWords cc ov = cc := by
  rcases takeOverlapRev_pre ov cc.reverse 0 with ⟨rest, hr⟩
  refine ⟨rest.reverse, ?_⟩
  rw [overlapWords]
  have := congrArg List.reverse hr
  rw [List.reverse_append, List.reverse_reverse] at this
  exact this

theorem sumLen_overlapWords_le (cc : List Str) (ov : Nat) :
    sumLen (overlapWords cc ov) ≤ ov := by
  rw [overlapWords, sumLen_reverse]
  simpa using takeOverlapRev_bound ov cc.reverse 0 (Nat.zero_le ov)

theorem pyJoin_length_cons : ∀ (w : Str) (ts : List Str),
    (pyJoin (w :: ts)).length + 1 = sumLen (w :: ts) := by
  intro w ts
  induction ts generalizing w with
  | nil => simp [pyJoin, sumLen]
  | cons x ts ih =>
    rw [pyJoin, List.length_append]
    have := ih x
    unfold sumLen at this ⊢
    simp only [List.map_cons, List.sum_cons] at this ⊢
    simp only [List.length_cons]
    omega

theorem pyJoin_length_le_of_sumLen {ts : List Str} {ov : Nat}
    (h : sumLen ts ≤ ov) : (pyJoin ts).length ≤ ov := by
  cases ts with
  | nil => simp [pyJoin]
  | cons w ts =>
    have := pyJoin_length_cons w ts
    omega

theorem chunkLoopTagged_head (cs ov : Nat) : ∀ (ws cc : List Str) (cl k : Nat),
    chunkLoopTagged cs ov ws cc cl k = [] ∨
      ∃ ext rest, chunkLoopTagged cs ov ws cc cl k = (cc ++ ext, k) :: rest := by
  intro ws
  induction ws with
  | nil =>
    intro cc cl k
    rw [chunkLoopTagged]
    by_cases h : cc.isEmpty
    · exact Or.inl (by rw [if_pos h])
    · exact Or.inr ⟨[], [], by rw [if_neg h]; simp⟩
  | cons w ws ih =>
    intro cc cl k
    rw [chunkLoopTagged]
    by_cases h : cl + (w.length + 1) > cs
    · rw [if_pos h]
      refine Or.inr ⟨[], chunkLoopTagged cs ov ws (overlapWords cc ov ++ [w])
        (sumLen (overlapWords cc ov ++ [w])) (overlapWords cc ov).length, ?_⟩
      simp
    · rw [if_neg h]
      rcases ih (cc ++ [w]) (cl + (w.length + 1)) k with h1 | ⟨ext, rest, h2⟩
      · exact Or.inl h1
      · exact Or.inr ⟨[w] ++ ext, rest, by rw [h2]; simp⟩

theorem chunkLoopTagged_chain (cs ov : Nat) : ∀ (ws cc : List Str) (cl k : Nat),
    List.Chain'
      (fun a b => (∃ pre, pre ++ b.1.take b.2 = a.1) ∧
        (pyJoin (b.1.take b.2)).length ≤ ov)
      (chunkLoopTagged cs ov ws cc cl k) := by
  intro ws
  induction ws with
  | nil =>
    intro cc cl k
    rw [chunkLoopTagged]
    by_cases h : cc.isEmpty
    · rw [if_pos h]; exact List.chain'_nil
    · rw [if_neg h]; exact List.chain'_singleton _
  | cons w ws ih =>
    intro cc cl k
    rw [chunkLoopTagged]
    by_cases h : cl + (w.length + 1) > cs
    · rw [if_pos h]
      rw [List.chain'_cons']
      refine ⟨?_, ih _ _ _⟩
      intro y hy
      rcases chunkLoopTagged_head cs ov ws (overlapWords cc ov ++ [w])
          (sumLen (overlapWords cc ov ++ [w])) (overlapWords cc ov).length
        with hnil | ⟨ext, rest, heq⟩
      · rw [hnil] at hy; cases hy
      · rw [heq] at hy
        simp only [List.head?_cons, Option.mem_def, Option.some.injEq] at hy
        subst hy
        have htake : ((overlapWords cc ov ++ [w]) ++ ext).take
            (overlapWords cc ov).length = overlapWords cc ov := by
          rw [List.append_assoc]
          exact List.take_left _ _
        constructor
        · simp only [htake]
          exact overlapWords_suffix cc ov
        · simp only [htake]
          exact pyJoin_length_le_of_sumLen (sumLen_overlapWords_le cc ov)
    · rw [if_neg h]
      exact ih _ _ _

theorem chunk_reconstruction (text : Str) (cs ov : Nat)
    (h1 : 0 < ov) (h2 : ov < cs) :
    ((chunkTextTagged text cs ov).map (fun p => p.1.drop p.2)).flatten =
        pySplit text ∧
      (chunkTextTagged text cs ov).map (fun p => pyJoin p.1) =
        chunk_text text cs ov := by
  constructor
  · rw [chunkTextTagged]
    simpa using chunkLoopTagged_reconstruct cs ov (pySplit text) [] 0 0
      (Nat.le_refl 0)
  · rw [chunkTextTagged, chunk_text]
    exact chunkLoopTagged_proj cs ov (pySplit text) [] 0 0

theorem chunk_reconstruction_witness :
    0 < 5 ∧ 5 < 11 ∧
      ((chunkTextTagged (S "AAAA BBBB CCCC DDDD") 11 5).map
        (fun p => p.1.drop p.2)).flatten = pySplit (S "AAAA BBBB CCCC DDDD") :=
  ⟨by decide, by decide,
   (chunk_reconstruction (S "AAAA BBBB CCCC DDDD") 11 5
     (by decide) (by decide)).1⟩

theorem chunk_overlap_bound (text : Str) (cs ov : Nat) :
    List.Chain'
        (fun a b => (∃ pre, pre ++ b.1.take b.2 = a.1) ∧
          (pyJoin (b.1.take b.2)).length ≤ ov)
        (chunkTextTagged text cs ov) ∧
      (chunkTextTagged text cs ov).map (fun p => pyJoin p.1) =
        chunk_text text cs ov :=
  ⟨chunkLoopTagged_chain cs ov (pySplit text) [] 0 0,
   chunkLoopTagged_proj cs ov (pySplit text) [] 0 0⟩

theorem process_file_call_count (upstream : Str → Nat → Option Json)
    (clean : Str) (calls : List (Str × Nat)) (fs : Json)
    (h : processFileSummary upstream clean = some (calls, fs)) :
    ((chunk_text clean 4000 200).length > 1 →
      calls.length = min (chunk_text clean 4000 200).length 5 + 1 ∧
      calls.map Prod.snd =
        List.replicate (min (chunk_text clean 4000 200).length 5) 4 ++ [8] ∧
      (calls.map Prod.fst).take (min (chunk_text clean 4000 200).length 5) =
        (chunk_text clean 4000 200).take 5) ∧
    calls.length ≤ 6 ∧
    ((chunk_text clean 4000 200).length = 1 → calls = [(clean, 8)]) := by
  simp only [processFileSummary] at h
  by_cases hN : (chunk_text clean 4000 200).length > 1
  · rw [if_pos hN] at h
    rcases hm : ((chunk_text clean 4000 200).take 5).mapM
        (fun c => (summarize_text c (upstream c 4)).getStrField
          (S "executive_summary")) with _ | sums
    · rw [hm] at h
      cases h
    · rw [hm] at h
      simp only [Option.some.injEq, Prod.mk.injEq] at h
      have hcalls : calls =
          ((chunk_text clean 4000 200).take 5).map (fun c => (c, 4)) ++
            [(pyJoin sums, 8)] := h.1.symm
      have hlen5 : ((chunk_text clean 4000 200).take 5).length =
          min (chunk_text clean 4000 200).length 5 := by
        rw [List.length_take, Nat.min_comm]
      have hsnd : ∀ (l : List Str),
          (l.map (fun c => ((c, 4) : Str × Nat))).map Prod.snd =
            List.replicate l.length 4 := by
        intro l; induction l with
        | nil => rfl
        | cons a as iha => simp [iha, List.replicate_succ]
      have hfst : ∀ (l : List Str),
          (l.map (fun c => ((c, 4) : Str × Nat))).map Prod.fst = l := by
        intro l; induction l with
        | nil => rfl
        | cons a as iha => simp [iha]
      refine ⟨fun _ => ⟨?_, ?_, ?_⟩, ?_, fun h1 => absurd h1 (by omega)⟩
      · rw [hcalls]
        simp only [List.length_append, List.length_map, List.length_cons,
          List.length_nil, hlen5]
      · rw [hcalls, List.map_append, hsnd, hlen5]
        rfl
      · rw [hcalls, List.map_append, hfst, ← hlen5]
        exact List.take_left _ _
      · rw [hcalls]
        simp only [List.length_append, List.length_map, List.length_cons,
          List.length_nil, List.length_take]
        omega
  · rw [if_neg hN] at h
    simp only [Option.some.injEq, Prod.mk.injEq] at h
    have hcalls : calls = [(clean, 8)] := h.1.symm
    refine ⟨fun h1 => absurd h1 hN, ?_, fun _ => hcalls⟩
    rw [hcalls]
    simp

theorem pySplitAux_all_nonWS : ∀ (l acc : Str), (∀ c ∈ l, isWS c = false) →
    pySplitAux l acc = if (acc.reverse ++ l).isEmpty then [] else [acc.reverse ++ l] := by
  intro l
  induction l with
  | nil =>
    intro acc _
    rw [pySplitAux]
    rcases acc with _ | ⟨a, as⟩
    · rfl
    · simp
  | cons c cs ih =>
    intro acc h
    have hc : isWS c = false := h c (List.mem_cons_self c cs)
    rw [pySplitAux, if_neg (by simp [hc])]
    rw [ih (c :: acc) (fun d hd => h d (List.mem_cons_of_mem c hd))]
    simp

theorem pySplit_single {l : Str} (hne : l ≠ []) (h : ∀ c ∈ l, isWS c = false) :
    pySplit l = [l] := by
  rw [pySplit, pySplitAux_all_nonWS l [] h]
  simp [hne]

theorem wClean_length : wClean.length = 4001 := by
  rw [wClean, List.length_replicate]

theorem wClean_ne_nil : wClean ≠ [] := by
  intro h
  have := congrArg List.length h
  rw [wClean_length] at this
  cases this

theorem wClean_nonWS : ∀ c ∈ wClean, isWS c = false := by
  intro c hc
  rw [wClean] at hc
  rw [List.eq_of_mem_replicate hc]
  rfl

theorem wChunks : chunk_text wClean 4000 200 = [[], wClean] := by
  rw [chunk_text, pySplit_single wClean_ne_nil wClean_nonWS]
  rw [chunkLoop, if_pos (by rw [wClean_length]; omega)]
  rfl

theorem wProcess : processFileSummary wUp wClean = some (wCalls, wFS) := by
  rw [processFileSummary, wChunks, if_pos (by decide)]
  rfl

theorem process_file_call_count_witness :
    (chunk_text wClean 4000 200).length > 1 ∧
      wCalls.length = min (chunk_text wClean 4000 200).length 5 + 1 ∧
      wCalls.length ≤ 6 :=
  have hN : (chunk_text wClean 4000 200).length > 1 := by rw [wChunks]; decide
  ⟨hN, ((process_file_call_count wUp wClean wCalls wFS wProcess).1 hN).1,
    (process_file_call_count wUp wClean wCalls wFS wProcess).2.1⟩
